import Mathlib

/-!
Verification of the plenum client (`plenum/client/client.py`): reply quorum
resolution, connection readiness and request queueing, request submission,
inbound message routing, fault parameters, and Merkle audit-path checking.

The client state and its operations are shallowly embedded: each Python
method becomes a Lean function on an explicit `ClientState`; the transport
(`nodestack.send`) is represented by an outbound message log, and the
ledger-manager handlers by a forwarded-event log.
-/

set_option maxRecDepth 4096
set_option linter.unusedSectionVars false

namespace Plenum

/-- The `result` object of a reply: the request id it answers
(`result[REQ_ID]`) together with the rest of the result payload.
Quorum comparison in `hasConsensus` is structural equality of the whole
object. -/
structure RResult (V : Type) where
  reqId : Nat
  res : V
deriving DecidableEq

/-- A node message as seen by the client.  An ordinary reply carries a
`result` object (which contains the request id); the four pool-protocol
kinds (`POOL_LEDGER_TXNS`, `LEDGER_STATUS`, `CONSISTENCY_PROOF`,
`CATCHUP_REP`) and any other operation tag carry no data relevant here. -/
inductive NodeMsg (V : Type) where
  | reply (result : RResult V)
  | poolLedgerTxns
  | ledgerStatus
  | consistencyProof
  | catchupRep
  | other
deriving DecidableEq

/-- Client readiness status (`plenum.common.startable.Status` as used by
the client, per spec section 3). -/
inductive CliStatus where
  | notStarted
  | startedHungry
  | started
  | stopped
deriving DecidableEq

/-- Sync mode (`plenum.common.startable.Mode` values the client assigns:
`Mode.starting` during catch-up, `Mode.discovered` afterwards; `none`
when undetermined). -/
inductive Mode where
  | starting
  | discovered
deriving DecidableEq

/-- A signer held by the wallet; only its identity matters here. -/
structure Signer where
  identifier : String
deriving DecidableEq

/-- A client request: `Request(identifier or defaultIdentifier, lastReqId + 1, operation)`. -/
structure Request (Op : Type) where
  identifier : Option String
  reqId : Nat
  operation : Op
deriving DecidableEq

/-- One outbound transport action (`nodestack.send`). -/
inductive OutMsg (Op : Type) where
  | request (r : Request Op) (signer : Option Signer)
  | ledgerStatusTo (node : String)
deriving DecidableEq

/-- The client state: the fault parameters set by `setF`, the request
counter, sync mode, connection count, readiness status, motor flag
(`isGoing`), ledger flag (`self._ledger`), wallet signers, the append-only
inbox, the pending-request queue, the outbound transport log and the
log of messages forwarded to the ledger manager. -/
structure ClientState (V Op : Type) where
  f : Nat
  minNodesToConnect : Nat
  totalNodes : Nat
  lastReqId : Nat
  mode : Option Mode
  conns : Nat
  status : CliStatus
  going : Bool
  hasLedger : Bool
  defaultIdentifier : Option String
  signers : List (String × Signer)
  inBox : List (NodeMsg V × String)
  reqsPendingConnection : List (Request Op × Option Signer)
  sent : List (OutMsg Op)
  ledgerEvents : List (NodeMsg V × String)
deriving DecidableEq

variable {V Op : Type} [DecidableEq V] [DecidableEq Op]

/-- Python `x or y` on optional values (`identifier or self.defaultIdentifier`). -/
def pyOr (a d : Option String) : Option String :=
  match a with
  | some x => some x
  | none => d

/-- Update an insertion-ordered association list the way a Python dict
comprehension does: a repeated key keeps its original position but takes
the new value. -/
def updAssoc (m : List (String × RResult V)) (k : String) (v : RResult V) :
    List (String × RResult V) :=
  match m with
  | [] => [(k, v)]
  | (k', v') :: rest => if k' = k then (k', v) :: rest else (k', v') :: updAssoc rest k v

/-- First (unique) binding of a key in an association list. -/
def lookupA (m : List (String × RResult V)) (k : String) : Option (RResult V) :=
  match m with
  | [] => none
  | (k', v) :: rest => if k' = k then some v else lookupA rest k

/-- One step of the dict comprehension in `getRepliesFromAllNodes`:
`{frm: msg for msg, frm in self.inBox if msg[OP] == REPLY and msg[RESULT][REQ_ID] == reqId}`. -/
def replyStep (reqId : Nat) (acc : List (String × RResult V)) (wm : NodeMsg V × String) :
    List (String × RResult V) :=
  match wm.1 with
  | NodeMsg.reply r => if r.reqId = reqId then updAssoc acc wm.2 r else acc
  | _ => acc

/-- `Client.getRepliesFromAllNodes`: map each source node to its (last)
reply for `reqId` found in the inbox. -/
def getRepliesFromAllNodes (inBox : List (NodeMsg V × String)) (reqId : Nat) :
    List (String × RResult V) :=
  inBox.foldl (replyStep reqId) []

/-- Occurrences of a result value in a list (Python list counting by equality). -/
def countV (l : List (RResult V)) (v : RResult V) : Nat :=
  l.countP (fun x => decide (x = v))

/-- Fold step used to pick the maximally occurring item: strict comparison
keeps the earliest item among equal counts. -/
def bestStep (l : List (RResult V)) (acc : Option (RResult V)) (v : RResult V) :
    Option (RResult V) :=
  match acc with
  | none => some v
  | some b => if countV l b < countV l v then some v else acc

def bestAux (l : List (RResult V)) : List (RResult V) → Option (RResult V) → Option (RResult V)
  | [], acc => acc
  | v :: rest, acc => bestAux l rest (bestStep l acc v)

/-- The item of `l` with the largest number of occurrences (earliest first
occurrence wins ties), or `none` for an empty list. -/
def bestOf (l : List (RResult V)) : Option (RResult V) :=
  bestAux l l none

/-- Modelled from the spec: `checkIfMoreThanFSameItems` lives in
`plenum.common.util`, which is not under `src/`.  Per spec section 4.4
step 5 (and the function's use and name), it partitions the result list by
value and yields the maximally occurring result when its count strictly
exceeds `maxF`, and a falsy value otherwise. -/
def checkIfMoreThanFSameItems (resultsList : List (RResult V)) (maxF : Nat) :
    Option (RResult V) :=
  match bestOf resultsList with
  | some b => if maxF < countV resultsList b then some b else none
  | none => none

/-- Return value of `Client.hasConsensus`: a raised `KeyError`, a falsy
value (`False` or the falsy result of `checkIfMoreThanFSameItems`), or a
truthy result object. -/
inductive ConsOutcome (V : Type) where
  | keyError
  | falsy
  | value (r : RResult V)
deriving DecidableEq

/-- `Client.hasConsensus`: group replies for the request, raise `KeyError`
when there are none, return `False` below `f + 1` replies, the common
result when all results agree, and otherwise defer to
`checkIfMoreThanFSameItems`. -/
def hasConsensus (s : ClientState V Op) (reqId : Nat) : ConsOutcome V :=
  match getRepliesFromAllNodes s.inBox reqId with
  | [] => ConsOutcome.keyError
  | r0 :: rest =>
    if s.f + 1 > (r0 :: rest).length then ConsOutcome.falsy
    else if ∀ r ∈ (r0 :: rest).map (fun p => p.2), r = r0.2 then ConsOutcome.value r0.2
    else
      match checkIfMoreThanFSameItems ((r0 :: rest).map (fun p => p.2)) s.f with
      | some r => ConsOutcome.value r
      | none => ConsOutcome.falsy

/-- The status string returned by `Client.getReply`. -/
inductive ReplyStatus where
  | notFound
  | unconfirmed
  | confirmed
deriving DecidableEq

/-- `Client.getReply`: wrap `hasConsensus`, turning `KeyError` into
`(None, NOT_FOUND)`, a falsy value into `(None, UNCONFIRMED)` and a
truthy result into `(result, CONFIRMED)`. -/
def getReply (s : ClientState V Op) (reqId : Nat) : Option (RResult V) × ReplyStatus :=
  match hasConsensus s reqId with
  | ConsOutcome.keyError => (none, ReplyStatus.notFound)
  | ConsOutcome.falsy => (none, ReplyStatus.unconfirmed)
  | ConsOutcome.value r => (some r, ReplyStatus.confirmed)

/-- State-passing form of `getRepliesFromAllNodes`; the method body reads
`self.inBox` and performs no assignment. -/
def getRepliesFromAllNodesS (s : ClientState V Op) (reqId : Nat) :
    ClientState V Op × List (String × RResult V) :=
  (s, getRepliesFromAllNodes s.inBox reqId)

/-- State-passing form of `hasConsensus`; the method body reads `self.f`
and the inbox (through `getRepliesFromAllNodes`) and performs no assignment. -/
def hasConsensusS (s : ClientState V Op) (reqId : Nat) :
    ClientState V Op × ConsOutcome V :=
  let (s1, _) := getRepliesFromAllNodesS s reqId
  (s1, hasConsensus s1 reqId)

/-- State-passing form of `getReply`; the method body only calls
`hasConsensus` and matches on its outcome. -/
def getReplyS (s : ClientState V Op) (reqId : Nat) :
    ClientState V Op × (Option (RResult V) × ReplyStatus) :=
  let (s1, _) := hasConsensusS s reqId
  (s1, getReply s1 reqId)

/-! ### Fault parameters (`Client.setF`) -/

/-- Errors of the embedded operations. -/
inductive ClientErr where
  | invalidTopology
  | proofError
deriving DecidableEq

/-- The derived fault parameters (spec section 3). -/
structure FaultParameters where
  totalReplicas : Nat
  f : Nat
  minRequiredConnections : Nat
deriving DecidableEq

/-- Modelled from the spec: `getMaxFailures` lives in `plenum.common.util`,
which is not under `src/`.  Per spec section 4.1 it fails with
`InvalidTopology` when `totalReplicas < 1` and yields
`floor((totalReplicas - 1) / 3)` otherwise. -/
def getMaxFailures (totalReplicas : Nat) : Except ClientErr Nat :=
  if totalReplicas < 1 then Except.error ClientErr.invalidTopology
  else Except.ok ((totalReplicas - 1) / 3)

/-- `Client.setF`: `f = getMaxFailures(len(nodeReg))`,
`minNodesToConnect = f + 1`, `totalNodes = len(nodeReg)`. -/
def setF (nodeCount : Nat) : Except ClientErr FaultParameters :=
  (getMaxFailures nodeCount).map (fun f => ⟨nodeCount, f, f + 1⟩)

/-! ### Submission (`Client.createRequest`, `Client.getSigner`, `Client.submit`) -/

/-- `Client.hasSufficientConnections`: `len(self.nodestack.conns) >= self.minNodesToConnect`. -/
def hasSufficientConnections (s : ClientState V Op) : Bool :=
  s.minNodesToConnect ≤ s.conns

/-- `Client.createRequest`: build
`Request(identifier or self.defaultIdentifier, self.lastReqId + 1, operation)`
and increment `self.lastReqId`. -/
def createRequest (s : ClientState V Op) (operation : Op) (identifier : Option String) :
    ClientState V Op × Request Op :=
  ({s with lastReqId := s.lastReqId + 1},
   ⟨pyOr identifier s.defaultIdentifier, s.lastReqId + 1, operation⟩)

/-- `Client.getSigner`: `self.signers[identifier or self.defaultIdentifier]`,
returning `None` (not an error) when the key is absent. -/
def getSigner (s : ClientState V Op) (identifier : Option String) : Option Signer :=
  match pyOr identifier s.defaultIdentifier with
  | none => none
  | some k => (s.signers.find? (fun p => p.1 = k)).map (fun p => p.2)

/-- `Client.pendReqsTillConnection`: append `(request, signer)` to
`self.reqsPendingConnection`. -/
def pendReqsTillConnection (s : ClientState V Op) (request : Request Op)
    (signer : Option Signer) : ClientState V Op :=
  {s with reqsPendingConnection := s.reqsPendingConnection ++ [(request, signer)]}

/-- One iteration of the loop in `Client.submit`: create the request, look
up the signer, then send it when the client is discovered with sufficient
connections and enqueue it otherwise. -/
def submitOne (s : ClientState V Op) (operation : Op) (identifier : Option String) :
    ClientState V Op × Request Op :=
  let (s1, request) := createRequest s operation identifier
  let signer := getSigner s1 identifier
  if s1.mode = some Mode.discovered ∧ hasSufficientConnections s1 then
    ({s1 with sent := s1.sent ++ [OutMsg.request request signer]}, request)
  else
    (pendReqsTillConnection s1 request signer, request)

def submitGo (s : ClientState V Op) (identifier : Option String) :
    List Op → ClientState V Op × List (Request Op)
  | [] => (s, [])
  | operation :: rest =>
    let (s1, request) := submitOne s operation identifier
    let (s2, requests) := submitGo s1 identifier rest
    (s2, request :: requests)

/-- `Client.submit`: resolve the identifier against the default once, then
process each operation in order, returning every created request. -/
def submit (s : ClientState V Op) (operations : List Op) (identifier : Option String) :
    ClientState V Op × List (Request Op) :=
  submitGo s (pyOr identifier s.defaultIdentifier) operations

/-- The `if signer and signers: raise ValueError(...)` check in
`Client.__init__`. -/
def initSignerCheck (signer : Option Signer) (signers : Option (List (String × Signer))) :
    Except String Unit :=
  if signer.isSome ∧ signers.isSome then
    Except.error "only one of signer or signers can be used"
  else Except.ok ()

/-! ### Connections (`Client.onConnsChanged`, `Client.flushMsgsPendingConnection`) -/

/-- The `while self.reqsPendingConnection: popleft; send` loop of
`Client.flushMsgsPendingConnection`. -/
def flushLoop (sent : List (OutMsg Op)) :
    List (Request Op × Option Signer) → List (OutMsg Op)
  | [] => sent
  | (request, signer) :: rest => flushLoop (sent ++ [OutMsg.request request signer]) rest

/-- `Client.flushMsgsPendingConnection`: drain the pending queue from the
left, sending each entry. -/
def flushMsgsPendingConnection (s : ClientState V Op) : ClientState V Op :=
  {s with sent := flushLoop s.sent s.reqsPendingConnection,
          reqsPendingConnection := []}

/-- `Client.onConnsChanged`: while the motor is going, recompute the status
from the connection count, flush the pending queue when sufficiently
connected and discovered, and finally send a ledger status to each newly
joined node when a ledger is in use. -/
def onConnsChanged (s : ClientState V Op) (joined : List String) : ClientState V Op :=
  let s2 :=
    if s.going then
      let s1 :=
        if s.conns = s.totalNodes then {s with status := CliStatus.started}
        else if s.minNodesToConnect ≤ s.conns then {s with status := CliStatus.startedHungry}
        else s
      if hasSufficientConnections s1 ∧ s1.mode = some Mode.discovered then
        flushMsgsPendingConnection s1
      else s1
    else s
  if s2.hasLedger then
    {s2 with sent := s2.sent ++ joined.map OutMsg.ledgerStatusTo}
  else s2

/-! ### Inbound messages (`Client.handleOneNodeMsg`) -/

/-- Whether the operation tag is one of the pool-protocol kinds
(`typs = (POOL_LEDGER_TXNS, LEDGER_STATUS, CONSISTENCY_PROOF, CATCHUP_REP)`). -/
def isPoolMsg : NodeMsg V → Bool
  | NodeMsg.poolLedgerTxns => true
  | NodeMsg.ledgerStatus => true
  | NodeMsg.consistencyProof => true
  | NodeMsg.catchupRep => true
  | _ => false

/-- `Client.handleOneNodeMsg`: always append the wrapped message to the
inbox first, then forward it to the matching ledger-manager handler when
it carries a pool-protocol tag and a ledger is in use. -/
def handleOneNodeMsg (s : ClientState V Op) (wrappedMsg : NodeMsg V × String) :
    ClientState V Op :=
  let s0 := {s with inBox := s.inBox ++ [wrappedMsg]}
  if isPoolMsg wrappedMsg.1 ∧ s0.hasLedger then
    {s0 with ledgerEvents := s0.ledgerEvents ++ [wrappedMsg]}
  else s0

/-! ### Derived vocabulary used by the theorem statements -/

/-- Whether an inbox entry is an ordinary reply carrying the given request id. -/
def isReplyFor (wm : NodeMsg V × String) (reqId : Nat) : Bool :=
  match wm.1 with
  | NodeMsg.reply r => r.reqId = reqId
  | _ => false

/-- All replies for `reqId` sent by the node `frm`, in inbox order. -/
def matchingFrom (inBox : List (NodeMsg V × String)) (reqId : Nat) (frm : String) :
    List (RResult V) :=
  inBox.filterMap (fun wm =>
    match wm.1 with
    | NodeMsg.reply r => if r.reqId = reqId ∧ wm.2 = frm then some r else none
    | _ => none)

/-- The `resultsList` computed inside `hasConsensus`: the grouped replies'
result objects. -/
def replyResults (s : ClientState V Op) (reqId : Nat) : List (RResult V) :=
  (getRepliesFromAllNodes s.inBox reqId).map (fun p => p.2)

/-- The per-request requests produced by a `submit` call: identifiers all
resolve to `ident`, request ids continue from `startId`. -/
def expectedReqs (ident : Option String) (startId : Nat) : List Op → List (Request Op)
  | [] => []
  | operation :: rest => ⟨ident, startId + 1, operation⟩ :: expectedReqs ident (startId + 1) rest

/-! ### Concrete states used by counterexamples and witnesses -/

/-- A connected, discovered 4-node client (`f = 1`) with an empty inbox. -/
def baseState : ClientState Nat Nat where
  f := 1
  minNodesToConnect := 2
  totalNodes := 4
  lastReqId := 0
  mode := some Mode.discovered
  conns := 4
  status := CliStatus.started
  going := true
  hasLedger := false
  defaultIdentifier := none
  signers := []
  inBox := []
  reqsPendingConnection := []
  sent := []
  ledgerEvents := []

/-- A connected, discovered 7-node client (`f = 2`). -/
def base7 : ClientState Nat Nat :=
  {baseState with f := 2, minNodesToConnect := 3, totalNodes := 7, conns := 7}

/-- Two agreeing replies for request 1. -/
def c1Box1 : List (NodeMsg Nat × String) :=
  [(NodeMsg.reply ⟨1, 5⟩, "Alpha"), (NodeMsg.reply ⟨1, 5⟩, "Beta")]

/-- The same inbox after both nodes re-reply with a different result. -/
def c1Box2 : List (NodeMsg Nat × String) :=
  c1Box1 ++ [(NodeMsg.reply ⟨1, 6⟩, "Alpha"), (NodeMsg.reply ⟨1, 6⟩, "Beta")]

/-- Five replies for request 1 split 2/2/1 across three distinct results. -/
def c3Box : List (NodeMsg Nat × String) :=
  [(NodeMsg.reply ⟨1, 10⟩, "A"), (NodeMsg.reply ⟨1, 10⟩, "B"),
   (NodeMsg.reply ⟨1, 20⟩, "C"), (NodeMsg.reply ⟨1, 20⟩, "D"),
   (NodeMsg.reply ⟨1, 30⟩, "E")]

/-! ### Merkle audit-path verification (`Client.verifyMerkleProof`)

The Merkle machinery used by `verifyMerkleProof` lives outside `src/`
(`ledger.merkle_verifier.MerkleVerifier`, `CompactSerializer`, `base64`),
so it is modelled from the spec (section 4.6): a standard Merkle
audit-path inclusion check over the RFC-6962-style tree (level-wise
pairing with the odd last node promoted), with SHA-256 idealized as an
injective combining function and the base64 transport encoding elided
(byte strings carried verbatim). -/

abbrev Bytes := List Nat

/-- Modelled from the spec: the leaf hash, idealized as an injective
tagged encoding (collision-free, as the spec's tamper-detection property
presumes). -/
def leafHash (d : Bytes) : Bytes := 0 :: d

/-- Modelled from the spec: the interior-node hash, idealized as an
injective tagged encoding of the two children. -/
def hashChildren (l r : Bytes) : Bytes := 1 :: l.length :: (l ++ r)

/-- One tree level combined pairwise; an odd trailing node is promoted. -/
def combineLevel : List Bytes → List Bytes
  | [] => []
  | [x] => [x]
  | x :: y :: rest => hashChildren x y :: combineLevel rest

/-- Root of a level, combining levels upward (`fuel` bounds the number of
levels; `fuel = length` always suffices). -/
def rootLevels : Nat → List Bytes → Bytes
  | _, [] => []
  | _, [x] => x
  | 0, _ :: _ :: _ => []
  | fuel + 1, x :: y :: rest => rootLevels fuel (hashChildren x y :: combineLevel rest)

/-- The Merkle tree hash of a list of leaf hashes. -/
def rootOf (level : List Bytes) : Bytes := rootLevels level.length level

/-- The audit path of the node at index `i` of a level: its sibling at
each level (none when it is the promoted last node), bottom-up. -/
def genPath : Nat → Nat → List Bytes → List Bytes
  | _, _, [] => []
  | _, _, [_] => []
  | 0, _, _ :: _ :: _ => []
  | fuel + 1, i, x :: y :: rest =>
    (if i % 2 = 1 then [(x :: y :: rest).getD (i - 1) []]
     else if i + 1 < (x :: y :: rest).length then [(x :: y :: rest).getD (i + 1) []]
     else []) ++ genPath fuel (i / 2) (hashChildren x y :: combineLevel rest)

/-- The audit path for leaf index `i` in the tree over `level`. -/
def auditPathOf (i : Nat) (level : List Bytes) : List Bytes :=
  genPath level.length i level

/-- Modelled from the spec: the verifier loop
(`_calculate_root_hash_from_audit_path` of the certificate-transparency
style `MerkleVerifier`, not under `src/`): starting from the leaf hash at
`nodeIndex` with `lastNode = treeSize - 1`, repeatedly absorb the next
audit-path entry on the left when the index is odd, on the right when it
is an even non-last node, and pass the hash through unchanged for an even
last node; fail if the path is exhausted early or entries remain. -/
def calcRootAux : Nat → Bytes → Nat → Nat → List Bytes → Option Bytes
  | _, h, _, 0, path => if path.isEmpty then some h else none
  | 0, _, _, _ + 1, _ => none
  | fuel + 1, h, i, last + 1, path =>
    match path with
    | [] => none
    | sib :: rest =>
      if i % 2 = 1 then
        calcRootAux fuel (hashChildren sib h) (i / 2) ((last + 1) / 2) rest
      else if i < last + 1 then
        calcRootAux fuel (hashChildren h sib) (i / 2) ((last + 1) / 2) rest
      else
        calcRootAux fuel h (i / 2) ((last + 1) / 2) (sib :: rest)

def calcRootFromAuditPath (leafH : Bytes) (nodeIndex treeSize : Nat)
    (path : List Bytes) : Option Bytes :=
  calcRootAux (treeSize - 1) leafH nodeIndex (treeSize - 1) path

/-- A value of one field of a reply result. -/
inductive FieldVal where
  | nat (n : Nat)
  | bytes (b : Bytes)
  | bytesList (l : List Bytes)
deriving DecidableEq

def serializeField : FieldVal → Bytes
  | FieldVal.nat n => [0, n]
  | FieldVal.bytes b => 1 :: b.length :: b
  | FieldVal.bytesList l => 2 :: l.length :: (l.map (fun b => b.length :: b)).flatten

def strBytes (s : String) : Bytes := s.toList.map Char.toNat

/-- Modelled from the spec: the `CompactSerializer` (the `ledger` package,
not under `src/`) producing the canonical serialized form of a field map. -/
def serializeResult (entries : List (String × FieldVal)) : Bytes :=
  (entries.map (fun p => strBytes p.1 ++ serializeField p.2)).flatten

/-- A reply result carrying a Merkle proof: `seqNo`, `rootHash` and
`auditPath` (the proof fields) plus the remaining ledger-entry fields. -/
structure RReply where
  seqNo : Nat
  rootHash : Bytes
  auditPath : List Bytes
  txnFields : List (String × Bytes)
deriving DecidableEq

def fieldEntries (t : List (String × Bytes)) : List (String × FieldVal) :=
  t.map (fun p => (p.1, FieldVal.bytes p.2))

/-- The full result dict of a reply (`r[RESULT]`). -/
def resultDict (r : RReply) : List (String × FieldVal) :=
  fieldEntries r.txnFields ++
    [("auditPath", FieldVal.bytesList r.auditPath),
     ("seqNo", FieldVal.nat r.seqNo),
     ("rootHash", FieldVal.bytes r.rootHash)]

/-- The filter in `Client.verifyMerkleProof`: all result fields except
`auditPath`, `seqNo` and `rootHash`. -/
def filteredEntries (r : RReply) : List (String × FieldVal) :=
  (resultDict r).filter
    (fun p => !(decide (p.1 = "auditPath" ∨ p.1 = "seqNo" ∨ p.1 = "rootHash")))

/-- Modelled from the spec: `MerkleVerifier.verify_leaf_inclusion` (not
under `src/`): recompute the root from the leaf and audit path and
compare it with the stated root hash, raising `ProofError` on any
mismatch or malformed path. -/
def verify_leaf_inclusion (leafData : Bytes) (leafIndex : Nat) (path : List Bytes)
    (sthTreeSize : Nat) (sthRootHash : Bytes) : Except ClientErr Bool :=
  if sthTreeSize ≤ leafIndex then Except.error ClientErr.proofError
  else
    match calcRootFromAuditPath (leafHash leafData) leafIndex sthTreeSize path with
    | none => Except.error ClientErr.proofError
    | some root =>
      if root = sthRootHash then Except.ok true else Except.error ClientErr.proofError

/-- One iteration of the loop in `Client.verifyMerkleProof`: extract
`seqNo`, root hash and audit path, serialize all non-proof fields, and
check inclusion at leaf index `seqNo - 1` against tree size `seqNo`. -/
def verifyOne (r : RReply) : Except ClientErr Bool :=
  verify_leaf_inclusion (serializeResult (filteredEntries r)) (r.seqNo - 1)
    r.auditPath r.seqNo r.rootHash

/-- `Client.verifyMerkleProof`: verify each reply in turn, fail-fast, and
return `True`. -/
def verifyMerkleProof : List RReply → Except ClientErr Bool
  | [] => Except.ok true
  | r :: rest =>
    match verifyOne r with
    | Except.error e => Except.error e
    | Except.ok _ => verifyMerkleProof rest

/-- The leaf hashes of a ledger: one per serialized entry. -/
def ledgerLeafHashes (txns : List (List (String × Bytes))) : List Bytes :=
  txns.map (fun t => leafHash (serializeResult (fieldEntries t)))

/-- The genuine reply for the `i`-th ledger entry: its proof is built
against the tree of the first `i + 1` entries (the stated tree size
equals `seqNo = i + 1`, so the entry is the last leaf). -/
def genuineReply (txns : List (List (String × Bytes))) (i : Nat) : RReply where
  seqNo := i + 1
  rootHash := rootOf (ledgerLeafHashes (txns.take (i + 1)))
  auditPath := auditPathOf i (ledgerLeafHashes (txns.take (i + 1)))
  txnFields := txns.getD i []

instance : DecidableEq (Except ClientErr Bool) := fun a b =>
  match a, b with
  | Except.ok x, Except.ok y =>
    if h : x = y then isTrue (by rw [h]) else isFalse (by simp [h])
  | Except.error x, Except.error y =>
    if h : x = y then isTrue (by rw [h]) else isFalse (by simp [h])
  | Except.ok _, Except.error _ => isFalse (by simp)
  | Except.error _, Except.ok _ => isFalse (by simp)

/-- A three-entry ledger used by the claim C5 witness. -/
def c5Txns : List (List (String × Bytes)) := [[("a", [1])], [("b", [2])], [("c", [3])]]

/-! ## Theorems -/

section Lemmas

theorem getRepliesFromAllNodes_append (inBox T : List (NodeMsg V × String)) (reqId : Nat) :
    getRepliesFromAllNodes (inBox ++ T) reqId =
      T.foldl (replyStep reqId) (getRepliesFromAllNodes inBox reqId) := by
  simp [getRepliesFromAllNodes, List.foldl_append]

theorem replyStep_skip (reqId : Nat) (acc : List (String × RResult V))
    (wm : NodeMsg V × String) (h : isReplyFor wm reqId = false) :
    replyStep reqId acc wm = acc := by
  cases hm : wm.1 <;> simp_all [replyStep, isReplyFor]

theorem foldl_replyStep_skip (reqId : Nat) (T : List (NodeMsg V × String))
    (h : ∀ wm ∈ T, isReplyFor wm reqId = false) :
    ∀ acc : List (String × RResult V), T.foldl (replyStep reqId) acc = acc := by
  induction T with
  | nil => intro acc; rfl
  | cons wm rest ih =>
    intro acc
    have hw : isReplyFor wm reqId = false := h wm (List.mem_cons_self wm rest)
    have hrest : ∀ wm ∈ rest, isReplyFor wm reqId = false :=
      fun x hx => h x (List.mem_cons_of_mem wm hx)
    simp [List.foldl_cons, replyStep_skip reqId acc wm hw, ih hrest]

theorem hasConsensus_append_skip (s : ClientState V Op) (reqId : Nat)
    (T : List (NodeMsg V × String)) (h : ∀ wm ∈ T, isReplyFor wm reqId = false) :
    hasConsensus {s with inBox := s.inBox ++ T} reqId = hasConsensus s reqId := by
  have hrep : getRepliesFromAllNodes (s.inBox ++ T) reqId =
      getRepliesFromAllNodes s.inBox reqId := by
    rw [getRepliesFromAllNodes_append, foldl_replyStep_skip reqId T h]
  simp only [hasConsensus, hrep]

theorem lookupA_updAssoc_self (m : List (String × RResult V)) (k : String) (v : RResult V) :
    lookupA (updAssoc m k v) k = some v := by
  induction m with
  | nil => simp [updAssoc, lookupA]
  | cons p rest ih =>
    by_cases h : p.1 = k
    · simp [updAssoc, lookupA, h]
    · simp [updAssoc, lookupA, h, ih]

theorem lookupA_updAssoc_ne (m : List (String × RResult V)) (k k' : String)
    (v : RResult V) (h : ¬ k = k') :
    lookupA (updAssoc m k v) k' = lookupA m k' := by
  induction m with
  | nil => simp [updAssoc, lookupA, h]
  | cons p rest ih =>
    by_cases hp : p.1 = k
    · have hpk' : ¬ p.1 = k' := by rw [hp]; exact h
      simp [updAssoc, lookupA, hp, hpk', h]
    · simp [updAssoc, lookupA, hp, ih]

theorem lookupA_getReplies (reqId : Nat) (frm : String) :
    ∀ inBox : List (NodeMsg V × String),
      lookupA (getRepliesFromAllNodes inBox reqId) frm =
        (matchingFrom inBox reqId frm).getLast? := by
  intro inBox
  induction inBox using List.reverseRecOn with
  | nil => rfl
  | append_singleton l wm ih =>
    rw [getRepliesFromAllNodes_append]
    simp only [List.foldl_cons, List.foldl_nil]
    rcases wm with ⟨m, src⟩
    have hsplit : matchingFrom (l ++ [(m, src)]) reqId frm =
        matchingFrom l reqId frm ++ matchingFrom [(m, src)] reqId frm := by
      simp [matchingFrom]
    rw [hsplit]
    cases m with
    | reply r =>
      by_cases hq : r.reqId = reqId
      · have h1 : replyStep reqId (getRepliesFromAllNodes l reqId) (NodeMsg.reply r, src) =
            updAssoc (getRepliesFromAllNodes l reqId) src r := by
          simp [replyStep, hq]
        by_cases hs : src = frm
        · subst hs
          have h2 : matchingFrom [(NodeMsg.reply r, src)] reqId src = [r] := by
            simp [matchingFrom, hq]
          rw [h1, h2, lookupA_updAssoc_self, List.getLast?_concat]
        · have h2 : matchingFrom [(NodeMsg.reply r, src)] reqId frm = [] := by
            simp [matchingFrom, hs]
          rw [h1, h2, lookupA_updAssoc_ne _ _ _ _ hs, List.append_nil]
          exact ih
      · have h1 : replyStep reqId (getRepliesFromAllNodes l reqId) (NodeMsg.reply r, src) =
            getRepliesFromAllNodes l reqId := by
          simp [replyStep, hq]
        have h2 : matchingFrom [(NodeMsg.reply r, src)] reqId frm = [] := by
          simp [matchingFrom, hq]
        rw [h1, h2, List.append_nil]
        exact ih
    | poolLedgerTxns => simpa [replyStep, matchingFrom] using ih
    | ledgerStatus => simpa [replyStep, matchingFrom] using ih
    | consistencyProof => simpa [replyStep, matchingFrom] using ih
    | catchupRep => simpa [replyStep, matchingFrom] using ih
    | other => simpa [replyStep, matchingFrom] using ih

theorem bestAux_spec (l : List (RResult V)) :
    ∀ (t : List (RResult V)) (acc : Option (RResult V)) (b : RResult V),
      bestAux l t acc = some b →
      (b ∈ t ∨ acc = some b) ∧ (∀ v ∈ t, countV l v ≤ countV l b) ∧
        (∀ a, acc = some a → countV l a ≤ countV l b) := by
  intro t
  induction t with
  | nil =>
    intro acc b h
    have hab : acc = some b := h
    refine ⟨Or.inr hab, by simp, fun a ha => ?_⟩
    rw [hab] at ha
    cases ha
    exact Nat.le_refl _
  | cons v rest ih =>
    intro acc b h
    have hstep : ∃ c, bestStep l acc v = some c ∧ countV l v ≤ countV l c ∧
        (∀ a, acc = some a → countV l a ≤ countV l c) := by
      cases acc with
      | none => exact ⟨v, rfl, Nat.le_refl _, by simp⟩
      | some a =>
        by_cases hlt : countV l a < countV l v
        · exact ⟨v, by simp [bestStep, hlt], Nat.le_refl _,
            fun x hx => by cases hx; exact Nat.le_of_lt hlt⟩
        · exact ⟨a, by simp [bestStep, hlt], Nat.le_of_not_lt hlt,
            fun x hx => by cases hx; exact Nat.le_refl _⟩
    rcases hstep with ⟨c, hc, hvc, hac⟩
    have h' : bestAux l rest (bestStep l acc v) = some b := by
      simpa [bestAux] using h
    rw [hc] at h'
    rcases ih (some c) b h' with ⟨hmem, hall, hacc⟩
    have hcb : countV l c ≤ countV l b := hacc c rfl
    refine ⟨?_, ?_, ?_⟩
    · rcases hmem with hb | hb
      · exact Or.inl (List.mem_cons_of_mem v hb)
      · cases hb
        rcases hc' : acc with _ | a
        · rw [hc'] at hc
          simp only [bestStep] at hc
          cases hc
          exact Or.inl (List.mem_cons_self _ _)
        · rw [hc'] at hc
          simp only [bestStep] at hc
          by_cases hlt : countV l a < countV l v
          · rw [if_pos hlt] at hc
            cases hc
            exact Or.inl (List.mem_cons_self _ _)
          · rw [if_neg hlt] at hc
            cases hc
            exact Or.inr rfl
    · intro w hw
      rcases List.mem_cons.mp hw with hwv | hwr
      · exact hwv ▸ Nat.le_trans hvc hcb
      · exact hall w hwr
    · intro a ha
      exact Nat.le_trans (hac a ha) hcb

theorem bestAux_isSome (l : List (RResult V)) :
    ∀ (t : List (RResult V)) (acc : Option (RResult V)),
      (acc.isSome ∨ t ≠ []) → (bestAux l t acc).isSome := by
  intro t
  induction t with
  | nil =>
    intro acc h
    rcases h with h | h
    · exact h
    · exact absurd rfl h
  | cons v rest ih =>
    intro acc _
    have : (bestStep l acc v).isSome := by
      cases acc with
      | none => rfl
      | some a =>
        by_cases hlt : countV l a < countV l v <;> simp [bestStep, hlt]
    exact ih (bestStep l acc v) (Or.inl this)

theorem checkIf_some_of_exists (l : List (RResult V)) (maxF : Nat)
    (hv : ∃ v ∈ l, maxF < countV l v) :
    ∃ b, checkIfMoreThanFSameItems l maxF = some b ∧ maxF < countV l b ∧ b ∈ l := by
  rcases hv with ⟨v, hvl, hvc⟩
  have hne : l ≠ [] := by rintro rfl; cases hvl
  have hsome := bestAux_isSome l l none (Or.inr hne)
  rcases hb : bestOf l with _ | b
  · rw [bestOf] at hb; rw [hb] at hsome; cases hsome
  · rcases bestAux_spec l l none b hb with ⟨hmem, hall, _⟩
    have hbl : b ∈ l := by
      rcases hmem with h | h
      · exact h
      · cases h
    have hcb : maxF < countV l b := Nat.lt_of_lt_of_le hvc (hall v hvl)
    exact ⟨b, by simp [checkIfMoreThanFSameItems, hb, hcb], hcb, hbl⟩

theorem checkIf_none_of_all (l : List (RResult V)) (maxF : Nat)
    (h : ∀ v ∈ l, countV l v ≤ maxF) :
    checkIfMoreThanFSameItems l maxF = none := by
  rcases hb : bestOf l with _ | b
  · simp [checkIfMoreThanFSameItems, hb]
  · rcases bestAux_spec l l none b hb with ⟨hmem, _, _⟩
    have hbl : b ∈ l := by
      rcases hmem with hm | hm
      · exact hm
      · cases hm
    have : ¬ maxF < countV l b := Nat.not_lt.mpr (h b hbl)
    simp [checkIfMoreThanFSameItems, hb, this]

theorem hasConsensus_congr (s s' : ClientState V Op) (reqId : Nat)
    (hf : s.f = s'.f) (hbox : s.inBox = s'.inBox) :
    hasConsensus s reqId = hasConsensus s' reqId := by
  simp only [hasConsensus, hf, hbox]

theorem flushLoop_eq (q : List (Request Op × Option Signer)) :
    ∀ sent : List (OutMsg Op),
      flushLoop sent q = sent ++ q.map (fun p => OutMsg.request p.1 p.2) := by
  induction q with
  | nil => intro sent; simp [flushLoop]
  | cons p rest ih =>
    intro sent
    rcases p with ⟨request, signer⟩
    simp [flushLoop, ih]

theorem submitOne_send (s : ClientState V Op) (op : Op) (ident : Option String)
    (h : s.mode = some Mode.discovered ∧ hasSufficientConnections s = true) :
    submitOne s op ident =
      ({s with lastReqId := s.lastReqId + 1,
               sent := s.sent ++ [OutMsg.request
                 ⟨pyOr ident s.defaultIdentifier, s.lastReqId + 1, op⟩ (getSigner s ident)]},
       ⟨pyOr ident s.defaultIdentifier, s.lastReqId + 1, op⟩) := by
  have hcond : (({s with lastReqId := s.lastReqId + 1} : ClientState V Op).mode =
      some Mode.discovered ∧
      hasSufficientConnections ({s with lastReqId := s.lastReqId + 1} : ClientState V Op)) :=
    ⟨h.1, h.2⟩
  simp only [submitOne, createRequest]
  rw [if_pos hcond]
  rfl

theorem submitOne_pend (s : ClientState V Op) (op : Op) (ident : Option String)
    (h : ¬ (s.mode = some Mode.discovered ∧ hasSufficientConnections s = true)) :
    submitOne s op ident =
      ({s with lastReqId := s.lastReqId + 1,
               reqsPendingConnection := s.reqsPendingConnection ++
                 [(⟨pyOr ident s.defaultIdentifier, s.lastReqId + 1, op⟩, getSigner s ident)]},
       ⟨pyOr ident s.defaultIdentifier, s.lastReqId + 1, op⟩) := by
  have hcond : ¬ (({s with lastReqId := s.lastReqId + 1} : ClientState V Op).mode =
      some Mode.discovered ∧
      hasSufficientConnections ({s with lastReqId := s.lastReqId + 1} : ClientState V Op)) :=
    fun hc => h ⟨hc.1, hc.2⟩
  simp only [submitOne, createRequest]
  rw [if_neg hcond]
  rfl

theorem submitGo_pend (ident : Option String) (ops : List Op) :
    ∀ s : ClientState V Op,
      ¬ (s.mode = some Mode.discovered ∧ hasSufficientConnections s = true) →
      (submitGo s ident ops).2 =
          expectedReqs (pyOr ident s.defaultIdentifier) s.lastReqId ops ∧
      (submitGo s ident ops).1.reqsPendingConnection =
        s.reqsPendingConnection ++
          (expectedReqs (pyOr ident s.defaultIdentifier) s.lastReqId ops).map
            (fun r => (r, getSigner s ident)) ∧
      (submitGo s ident ops).1.sent = s.sent := by
  induction ops with
  | nil =>
    intro s _
    simp [submitGo, expectedReqs]
  | cons op rest ih =>
    intro s h
    have h1 := submitOne_pend s op ident h
    have ih1 := ih
      {s with lastReqId := s.lastReqId + 1,
              reqsPendingConnection := s.reqsPendingConnection ++
                [(⟨pyOr ident s.defaultIdentifier, s.lastReqId + 1, op⟩, getSigner s ident)]}
      (fun hc => h ⟨hc.1, hc.2⟩)
    simp only [submitGo, h1]
    refine ⟨?_, ?_, ?_⟩
    · simp only [expectedReqs]
      exact congrArg _ ih1.1
    · rw [ih1.2.1]
      simp [expectedReqs, getSigner, List.append_assoc]
    · exact ih1.2.2

theorem submitGo_send (ident : Option String) (ops : List Op) :
    ∀ s : ClientState V Op,
      s.mode = some Mode.discovered → hasSufficientConnections s = true →
      (submitGo s ident ops).2 =
          expectedReqs (pyOr ident s.defaultIdentifier) s.lastReqId ops ∧
      (submitGo s ident ops).1.sent =
        s.sent ++
          (expectedReqs (pyOr ident s.defaultIdentifier) s.lastReqId ops).map
            (fun r => OutMsg.request r (getSigner s ident)) ∧
      (submitGo s ident ops).1.reqsPendingConnection = s.reqsPendingConnection := by
  induction ops with
  | nil =>
    intro s _ _
    simp [submitGo, expectedReqs]
  | cons op rest ih =>
    intro s hm hc
    have h1 := submitOne_send s op ident ⟨hm, hc⟩
    have ih1 := ih
      {s with lastReqId := s.lastReqId + 1,
              sent := s.sent ++ [OutMsg.request
                ⟨pyOr ident s.defaultIdentifier, s.lastReqId + 1, op⟩ (getSigner s ident)]}
      hm hc
    simp only [submitGo, h1]
    refine ⟨?_, ?_, ?_⟩
    · simp only [expectedReqs]
      exact congrArg _ ih1.1
    · rw [ih1.2.1]
      simp [expectedReqs, getSigner, List.append_assoc]
    · exact ih1.2.2

theorem pyOr_pyOr (a d : Option String) : pyOr (pyOr a d) d = pyOr a d := by
  cases a <;> cases d <;> rfl

theorem expectedReqs_length (ident : Option String) :
    ∀ (ops : List Op) (startId : Nat), (expectedReqs ident startId ops).length = ops.length := by
  intro ops
  induction ops with
  | nil => intro startId; rfl
  | cons op rest ih => intro startId; simp [expectedReqs, ih]

theorem submit_reqs (s : ClientState V Op) (ops : List Op) (ident : Option String) :
    (submit s ops ident).2 =
      expectedReqs (pyOr ident s.defaultIdentifier) s.lastReqId ops := by
  by_cases h : s.mode = some Mode.discovered ∧ hasSufficientConnections s = true
  · rw [submit, (submitGo_send (pyOr ident s.defaultIdentifier) ops s h.1 h.2).1, pyOr_pyOr]
  · rw [submit, (submitGo_pend (pyOr ident s.defaultIdentifier) ops s h).1, pyOr_pyOr]

end Lemmas

/-- Claim C4: for every replica-set size `n ≥ 1` the derived fault
parameters are `f = floor((n-1)/3)` and `minRequiredConnections = f + 1`
(`setF` sets `minNodesToConnect = f + 1`); in particular `n = 4` gives
`(f, min) = (1, 2)` and `n = 7` gives `(2, 3)`; and for `n < 1` the
derivation fails with `InvalidTopology`. -/
theorem claim_C4_theorem :
    (∀ n, 1 ≤ n → setF n = Except.ok ⟨n, (n - 1) / 3, (n - 1) / 3 + 1⟩) ∧
    setF 4 = Except.ok ⟨4, 1, 2⟩ ∧
    setF 7 = Except.ok ⟨7, 2, 3⟩ ∧
    (∀ n, n < 1 → setF n = Except.error ClientErr.invalidTopology) := by
  refine ⟨?_, rfl, rfl, ?_⟩
  · intro n hn
    simp [setF, getMaxFailures, Nat.not_lt.mpr hn, Except.map]
  · intro n hn
    have h0 : n = 0 := by omega
    subst h0
    rfl

/-- Claim C4 witness: the general part evaluated at `n = 5` and the
failure part at `n = 0`. -/
theorem claim_C4_witness :
    setF 5 = Except.ok ⟨5, 1, 2⟩ ∧ setF 0 = Except.error ClientErr.invalidTopology :=
  ⟨claim_C4_theorem.1 5 (by decide), claim_C4_theorem.2.2.2 0 (by decide)⟩

/-- Claim C9: querying a reply outcome is a pure read.  The state-passing
translations of `getReply`, `hasConsensus` and `getRepliesFromAllNodes`
(whose Python bodies contain no assignment) return the client state
unchanged — in particular the inbox, the pending request queue,
`lastReqId` and the readiness status are all preserved. -/
theorem claim_C9_theorem (s : ClientState V Op) (reqId : Nat) :
    (getReplyS s reqId).1 = s ∧
    (hasConsensusS s reqId).1 = s ∧
    (getRepliesFromAllNodesS s reqId).1 = s ∧
    (getReplyS s reqId).1.inBox = s.inBox ∧
    (getReplyS s reqId).1.reqsPendingConnection = s.reqsPendingConnection ∧
    (getReplyS s reqId).1.lastReqId = s.lastReqId ∧
    (getReplyS s reqId).1.status = s.status :=
  ⟨rfl, rfl, rfl, rfl, rfl, rfl, rfl⟩

/-- Claim C10: `handleOneNodeMsg` appends every inbound message — pool
kinds included — to the inbox exactly once, unconditionally and before
any forwarding; and because `getRepliesFromAllNodes` counts only entries
whose operation tag is `REPLY`, appending a pool-protocol message never
changes any request's resolution outcome. -/
theorem claim_C10_theorem (s : ClientState V Op) (wrappedMsg : NodeMsg V × String) :
    (handleOneNodeMsg s wrappedMsg).inBox = s.inBox ++ [wrappedMsg] ∧
    (isPoolMsg wrappedMsg.1 = true →
      ∀ reqId, getReply (handleOneNodeMsg s wrappedMsg) reqId = getReply s reqId) := by
  have hbox : (handleOneNodeMsg s wrappedMsg).inBox = s.inBox ++ [wrappedMsg] := by
    simp only [handleOneNodeMsg]
    by_cases h : isPoolMsg wrappedMsg.1 ∧ s.hasLedger <;> simp [h]
  refine ⟨hbox, ?_⟩
  intro hpool reqId
  have hf : (handleOneNodeMsg s wrappedMsg).f = s.f := by
    simp only [handleOneNodeMsg]
    by_cases h : isPoolMsg wrappedMsg.1 ∧ s.hasLedger <;> simp [h]
  have hrep : isReplyFor wrappedMsg reqId = false := by
    cases hm : wrappedMsg.1 <;> simp_all [isPoolMsg, isReplyFor]
  have hT : ∀ wm ∈ [wrappedMsg], isReplyFor wm reqId = false := by
    intro wm hwm
    rw [List.mem_singleton.mp hwm]
    exact hrep
  have h2 : hasConsensus (handleOneNodeMsg s wrappedMsg) reqId = hasConsensus s reqId := by
    calc hasConsensus (handleOneNodeMsg s wrappedMsg) reqId
        = hasConsensus {s with inBox := s.inBox ++ [wrappedMsg]} reqId :=
          hasConsensus_congr _ _ reqId hf hbox
      _ = hasConsensus s reqId := hasConsensus_append_skip s reqId [wrappedMsg] hT
  simp [getReply, h2]

/-- Claim C10 witness: appending a `LEDGER_STATUS` message (with a ledger
in use, so it is also forwarded) grows the inbox by exactly that entry and
leaves the resolution of request 1 unchanged. -/
theorem claim_C10_witness :
    (handleOneNodeMsg {baseState with hasLedger := true, inBox := c1Box1}
        (NodeMsg.ledgerStatus, "Gamma")).inBox =
      ({baseState with hasLedger := true, inBox := c1Box1} : ClientState Nat Nat).inBox ++
        [(NodeMsg.ledgerStatus, "Gamma")] ∧
    getReply (handleOneNodeMsg {baseState with hasLedger := true, inBox := c1Box1}
        (NodeMsg.ledgerStatus, "Gamma")) 1 =
      getReply ({baseState with hasLedger := true, inBox := c1Box1} : ClientState Nat Nat) 1 :=
  ⟨(claim_C10_theorem {baseState with hasLedger := true, inBox := c1Box1}
      (NodeMsg.ledgerStatus, "Gamma")).1,
   (claim_C10_theorem {baseState with hasLedger := true, inBox := c1Box1}
      (NodeMsg.ledgerStatus, "Gamma")).2 (by decide) 1⟩

/-- Claim C2: `getRepliesFromAllNodes` groups the inbox entries that are
ordinary replies carrying the request id by source node, keeping only the
last reply per node (first conjunct: the group's binding for each node is
the last matching reply it sent); and resolution cascades: empty group →
`NOT_FOUND`; fewer than `f + 1` replies → `UNCONFIRMED`; at least `f + 1`
replies all carrying structurally equal results → `CONFIRMED` with that
result. -/
theorem claim_C2_theorem (s : ClientState V Op) (reqId : Nat) :
    (∀ frm, lookupA (getRepliesFromAllNodes s.inBox reqId) frm =
        (matchingFrom s.inBox reqId frm).getLast?) ∧
    (getRepliesFromAllNodes s.inBox reqId = [] →
        getReply s reqId = (none, ReplyStatus.notFound)) ∧
    (getRepliesFromAllNodes s.inBox reqId ≠ [] →
        (getRepliesFromAllNodes s.inBox reqId).length < s.f + 1 →
        getReply s reqId = (none, ReplyStatus.unconfirmed)) ∧
    (∀ v : RResult V, s.f + 1 ≤ (getRepliesFromAllNodes s.inBox reqId).length →
        (∀ p ∈ getRepliesFromAllNodes s.inBox reqId, p.2 = v) →
        getReply s reqId = (some v, ReplyStatus.confirmed)) := by
  refine ⟨fun frm => lookupA_getReplies reqId frm s.inBox, ?_, ?_, ?_⟩
  · intro h
    simp [getReply, hasConsensus, h]
  · intro hne hlt
    rcases hG : getRepliesFromAllNodes s.inBox reqId with _ | ⟨r0, rest⟩
    · exact absurd hG hne
    · rw [hG] at hlt
      have hcons : hasConsensus s reqId = ConsOutcome.falsy := by
        simp only [hasConsensus, hG]
        rw [if_pos (by omega)]
      simp [getReply, hcons]
  · intro v hge hall
    rcases hG : getRepliesFromAllNodes s.inBox reqId with _ | ⟨r0, rest⟩
    · rw [hG] at hge; simp at hge
    · rw [hG] at hge hall
      have h0 : r0.2 = v := hall r0 (List.mem_cons_self r0 rest)
      have hmap : ∀ r ∈ (r0 :: rest).map (fun p => p.2), r = r0.2 := by
        intro r hr
        rcases List.mem_map.mp hr with ⟨p, hp, hpr⟩
        rw [← hpr, hall p hp, h0]
      have hcons : hasConsensus s reqId = ConsOutcome.value r0.2 := by
        simp only [hasConsensus, hG]
        rw [if_neg (by omega), if_pos hmap]
      simp [getReply, hcons, h0]

/-- Claim C2 witness: with `f = 1`, an inbox holding two agreeing replies
for request 1 (value 5), an overridden then re-sent reply chain for node
Alpha, and one reply for request 2: the group binding for Alpha is its
last reply; request 3 resolves `NOT_FOUND` (0 replies), request 2
`UNCONFIRMED` (1 reply), request 1 `CONFIRMED` (2 equal replies). -/
theorem claim_C2_witness :
    lookupA (getRepliesFromAllNodes
        ([(NodeMsg.reply ⟨1, 4⟩, "Alpha")] ++ c1Box1) 1) "Alpha" =
      (matchingFrom ([(NodeMsg.reply ⟨1, 4⟩, "Alpha")] ++ c1Box1) 1 "Alpha").getLast? ∧
    getReply {baseState with inBox := [(NodeMsg.reply ⟨1, 4⟩, "Alpha")] ++ c1Box1} 3 =
      (none, ReplyStatus.notFound) ∧
    getReply {baseState with inBox := [(NodeMsg.reply ⟨2, 7⟩, "Alpha")] ++ c1Box1} 2 =
      (none, ReplyStatus.unconfirmed) ∧
    getReply {baseState with inBox := [(NodeMsg.reply ⟨1, 4⟩, "Alpha")] ++ c1Box1} 1 =
      (some ⟨1, 5⟩, ReplyStatus.confirmed) :=
  ⟨(claim_C2_theorem
      {baseState with inBox := [(NodeMsg.reply ⟨1, 4⟩, "Alpha")] ++ c1Box1} 1).1 "Alpha",
   (claim_C2_theorem
      {baseState with inBox := [(NodeMsg.reply ⟨1, 4⟩, "Alpha")] ++ c1Box1} 3).2.1
     (by decide),
   (claim_C2_theorem
      {baseState with inBox := [(NodeMsg.reply ⟨2, 7⟩, "Alpha")] ++ c1Box1} 2).2.2.1
     (by decide) (by decide),
   (claim_C2_theorem
      {baseState with inBox := [(NodeMsg.reply ⟨1, 4⟩, "Alpha")] ++ c1Box1} 1).2.2.2
     ⟨1, 5⟩ (by decide) (by decide)⟩

/-- Claim C3 counterexample: with `f = 2` and five replies for request 1
split 2/2/1 across three distinct results, no partition exceeds `f`, and
the claim requires the distinct outcome `IndeterminateDisagreement`; the
code instead returns the plain `(None, UNCONFIRMED)` — `hasConsensus`
returns the falsy `checkIfMoreThanFSameItems` result and `getReply` maps
every falsy value to `UNCONFIRMED`, so the disagreement is collapsed into
`Unconfirmed` rather than surfaced. -/
theorem claim_C3_counterexample :
    getReply {base7 with inBox := c3Box} 1 = (none, ReplyStatus.unconfirmed) ∧
    (getRepliesFromAllNodes c3Box 1).length = 5 ∧
    base7.f = 2 ∧
    countV (replyResults {base7 with inBox := c3Box} 1) ⟨1, 10⟩ = 2 ∧
    countV (replyResults {base7 with inBox := c3Box} 1) ⟨1, 20⟩ = 2 ∧
    countV (replyResults {base7 with inBox := c3Box} 1) ⟨1, 30⟩ = 1 :=
  ⟨by decide, by decide, by decide, by decide, by decide, by decide⟩

/-- Claim C3 (amended): for a reply group of at least `f + 1` replies with
diverging results, if some partition by result value has size strictly
greater than `f` then resolution returns `CONFIRMED` with a result whose
partition exceeds `f` (the maximally occurring one); if no partition
exceeds `f`, resolution returns `(None, UNCONFIRMED)` — the disagreement
is collapsed into the ordinary Unconfirmed outcome, not surfaced as a
distinct `IndeterminateDisagreement`. -/
theorem claim_C3_theorem (s : ClientState V Op) (reqId : Nat)
    (hlen : s.f + 1 ≤ (getRepliesFromAllNodes s.inBox reqId).length)
    (hdiv : ∃ p ∈ getRepliesFromAllNodes s.inBox reqId,
            ∃ q ∈ getRepliesFromAllNodes s.inBox reqId, p.2 ≠ q.2) :
    ((∃ v ∈ replyResults s reqId, s.f < countV (replyResults s reqId) v) →
      ∃ b, s.f < countV (replyResults s reqId) b ∧
        getReply s reqId = (some b, ReplyStatus.confirmed)) ∧
    ((∀ v ∈ replyResults s reqId, countV (replyResults s reqId) v ≤ s.f) →
      getReply s reqId = (none, ReplyStatus.unconfirmed)) := by
  rcases hG : getRepliesFromAllNodes s.inBox reqId with _ | ⟨r0, rest⟩
  · rw [hG] at hlen; simp at hlen
  · rw [hG] at hlen hdiv
    have hR : replyResults s reqId = (r0 :: rest).map (fun p => p.2) := by
      simp [replyResults, hG]
    have hnall : ¬ ∀ r ∈ (r0 :: rest).map (fun p => p.2), r = r0.2 := by
      rcases hdiv with ⟨p, hp, q, hq, hpq⟩
      intro hall
      have h1 : p.2 = r0.2 := hall p.2 (List.mem_map.mpr ⟨p, hp, rfl⟩)
      have h2 : q.2 = r0.2 := hall q.2 (List.mem_map.mpr ⟨q, hq, rfl⟩)
      exact hpq (h1.trans h2.symm)
    have hnlt : ¬ s.f + 1 > (r0 :: rest).length := by omega
    constructor
    · intro hex
      rw [hR] at hex
      rcases checkIf_some_of_exists ((r0 :: rest).map (fun p => p.2)) s.f hex with
        ⟨b, hck, hcb, _⟩
      have hcons : hasConsensus s reqId = ConsOutcome.value b := by
        simp only [hasConsensus, hG]
        rw [if_neg hnlt, if_neg hnall, hck]
      exact ⟨b, by rw [hR]; exact hcb, by simp [getReply, hcons]⟩
    · intro hall
      rw [hR] at hall
      have hck := checkIf_none_of_all ((r0 :: rest).map (fun p => p.2)) s.f hall
      have hcons : hasConsensus s reqId = ConsOutcome.falsy := by
        simp only [hasConsensus, hG]
        rw [if_neg hnlt, if_neg hnall, hck]
      simp [getReply, hcons]

/-- Claim C3 witness: with `f = 1` and replies 10/10/20 for request 1
(partition of size 2 exceeds `f`), the amended theorem yields a Confirmed
majority result; with `f = 2` on the 2/2/1 split it yields
`(None, UNCONFIRMED)`. -/
theorem claim_C3_witness :
    (∃ b, 1 < countV (replyResults
        ({baseState with inBox := [(NodeMsg.reply ⟨1, 10⟩, "A"),
          (NodeMsg.reply ⟨1, 10⟩, "B"), (NodeMsg.reply ⟨1, 20⟩, "C")]} :
            ClientState Nat Nat) 1) b ∧
      getReply ({baseState with inBox := [(NodeMsg.reply ⟨1, 10⟩, "A"),
          (NodeMsg.reply ⟨1, 10⟩, "B"), (NodeMsg.reply ⟨1, 20⟩, "C")]} :
            ClientState Nat Nat) 1 = (some b, ReplyStatus.confirmed)) ∧
    getReply {base7 with inBox := c3Box} 1 = (none, ReplyStatus.unconfirmed) :=
  ⟨(claim_C3_theorem ({baseState with inBox := [(NodeMsg.reply ⟨1, 10⟩, "A"),
          (NodeMsg.reply ⟨1, 10⟩, "B"), (NodeMsg.reply ⟨1, 20⟩, "C")]} :
            ClientState Nat Nat) 1 (by decide) (by decide)).1 (by decide),
   (claim_C3_theorem {base7 with inBox := c3Box} 1 (by decide) (by decide)).2 (by decide)⟩

/-- Claim C1 counterexample: with `f = 1`, on the snapshot `c1Box1` (nodes
Alpha and Beta both reply `5` to request 1) resolution returns
`Confirmed(5)`, yet on the strictly larger snapshot `c1Box2`, obtained
from it by appending two further inbox entries (both nodes re-reply `6`,
and `getRepliesFromAllNodes` keeps the last reply per node), resolution
returns `Confirmed(6) ≠ Confirmed(5)`.  A previously Confirmed outcome
therefore does change on a larger snapshot, refuting the claim. -/
theorem claim_C1_counterexample :
    getReply {baseState with inBox := c1Box1} 1 =
      (some ⟨1, 5⟩, ReplyStatus.confirmed) ∧
    getReply {baseState with inBox := c1Box2} 1 =
      (some ⟨1, 6⟩, ReplyStatus.confirmed) ∧
    c1Box2 = c1Box1 ++ [(NodeMsg.reply ⟨1, 6⟩, "Alpha"), (NodeMsg.reply ⟨1, 6⟩, "Beta")] ∧
    (⟨1, 5⟩ : RResult Nat) ≠ ⟨1, 6⟩ :=
  ⟨by decide, by decide, by decide, by decide⟩

/-- Claim C1 (amended): a Confirmed outcome is stable under appending
inbox entries that are not ordinary replies carrying the same request id:
if `getReply` returns `(v, CONFIRMED)` on a snapshot, it still returns
`(v, CONFIRMED)` after appending any entries none of which is a `REPLY`
for that request id.  (Appending further matching replies can change a
previously Confirmed value, per the counterexample.) -/
theorem claim_C1_theorem (s : ClientState V Op) (reqId : Nat)
    (T : List (NodeMsg V × String)) (v : RResult V)
    (hc : getReply s reqId = (some v, ReplyStatus.confirmed))
    (hT : ∀ wm ∈ T, isReplyFor wm reqId = false) :
    getReply {s with inBox := s.inBox ++ T} reqId = (some v, ReplyStatus.confirmed) := by
  rw [getReply, hasConsensus_append_skip s reqId T hT, ← getReply]
  exact hc

/-- Claim C1 witness: instantiates the amended theorem on the `c1Box1`
snapshot, appending a ledger-status message and a reply for a different
request id. -/
theorem claim_C1_witness :
    getReply {baseState with
      inBox := c1Box1 ++ [(NodeMsg.ledgerStatus, "Gamma"), (NodeMsg.reply ⟨2, 9⟩, "Alpha")]} 1 =
      (some ⟨1, 5⟩, ReplyStatus.confirmed) :=
  claim_C1_theorem {baseState with inBox := c1Box1} 1
    [(NodeMsg.ledgerStatus, "Gamma"), (NodeMsg.reply ⟨2, 9⟩, "Alpha")] ⟨1, 5⟩
    (by decide) (by decide)

theorem onConnsChanged_flush (s : ClientState V Op) (joined : List String)
    (hg : s.going = true) (hmin : s.minNodesToConnect ≤ s.conns)
    (hmode : s.mode = some Mode.discovered) :
    (onConnsChanged s joined).reqsPendingConnection = [] ∧
    (onConnsChanged s joined).sent = s.sent ++
      s.reqsPendingConnection.map (fun p => OutMsg.request p.1 p.2) ++
      (if s.hasLedger then joined.map OutMsg.ledgerStatusTo else []) := by
  by_cases htot : s.conns = s.totalNodes
  · have hmin' : s.minNodesToConnect ≤ s.totalNodes := htot ▸ hmin
    by_cases hl : s.hasLedger = true <;>
      simp [onConnsChanged, hg, htot, hl, hmin, hmin', hmode, hasSufficientConnections,
        flushMsgsPendingConnection, flushLoop_eq, List.append_assoc]
  · by_cases hl : s.hasLedger = true <;>
      simp [onConnsChanged, hg, htot, hl, hmin, hmode, hasSufficientConnections,
        flushMsgsPendingConnection, flushLoop_eq, List.append_assoc]

theorem onConnsChanged_status (s : ClientState V Op) (joined : List String)
    (hg : s.going = true) :
    (onConnsChanged s joined).status =
      (if s.conns = s.totalNodes then CliStatus.started
       else if s.minNodesToConnect ≤ s.conns then CliStatus.startedHungry
       else s.status) := by
  by_cases htot : s.conns = s.totalNodes
  · by_cases hmin : s.minNodesToConnect ≤ s.conns
    · have hmin' : s.minNodesToConnect ≤ s.totalNodes := htot ▸ hmin
      by_cases hd : s.mode = some Mode.discovered <;> by_cases hl : s.hasLedger = true <;>
        simp [onConnsChanged, hg, htot, hmin, hmin', hd, hl, hasSufficientConnections,
          flushMsgsPendingConnection]
    · have hmin' : ¬ s.minNodesToConnect ≤ s.totalNodes := htot ▸ hmin
      by_cases hd : s.mode = some Mode.discovered <;> by_cases hl : s.hasLedger = true <;>
        simp [onConnsChanged, hg, htot, hmin, hmin', hd, hl, hasSufficientConnections,
          flushMsgsPendingConnection]
  · by_cases hmin : s.minNodesToConnect ≤ s.conns <;>
      by_cases hd : s.mode = some Mode.discovered <;> by_cases hl : s.hasLedger = true <;>
        simp [onConnsChanged, hg, htot, hmin, hd, hl, hasSufficientConnections,
          flushMsgsPendingConnection]

/-- Claim C6 counterexample: submitting with an identifier that has no
associated signer does not fail with `NoSuchIdentity` (no such failure
exists in the code): with an empty signer map, `submit` creates and
returns the request normally and enqueues it with signer `None`
(`getSigner` returns `None` for a missing key instead of raising). -/
theorem claim_C6_counterexample :
    (submit ({baseState with mode := none} : ClientState Nat Nat) [7] (some "alice")).2 =
      [⟨some "alice", 1, 7⟩] ∧
    (submit ({baseState with mode := none} : ClientState Nat Nat)
        [7] (some "alice")).1.reqsPendingConnection =
      [(⟨some "alice", 1, 7⟩, none)] ∧
    ({baseState with mode := none} : ClientState Nat Nat).signers = [] :=
  ⟨by decide, by decide, by decide⟩

/-- Claim C6 (amended): one request per operation is created and returned
regardless of connectivity — each either sent immediately (SyncMode
discovered and sufficient connections) or enqueued; a per-call `submit`
never fails: an identifier with no associated signer yields signer `None`
and the request is still dispatched or enqueued unsigned; the only
failure is the construction-time `ValueError`, raised exactly when both a
single signer and a signer map are supplied. -/
theorem claim_C6_theorem (s : ClientState V Op) (ops : List Op) (ident : Option String)
    (signer : Option Signer) (signersArg : Option (List (String × Signer))) :
    (submit s ops ident).2 = expectedReqs (pyOr ident s.defaultIdentifier) s.lastReqId ops ∧
    (submit s ops ident).2.length = ops.length ∧
    (s.mode = some Mode.discovered ∧ hasSufficientConnections s = true →
      (submit s ops ident).1.sent = s.sent ++ (submit s ops ident).2.map
          (fun r => OutMsg.request r (getSigner s (pyOr ident s.defaultIdentifier))) ∧
      (submit s ops ident).1.reqsPendingConnection = s.reqsPendingConnection) ∧
    (¬ (s.mode = some Mode.discovered ∧ hasSufficientConnections s = true) →
      (submit s ops ident).1.reqsPendingConnection = s.reqsPendingConnection ++
        (submit s ops ident).2.map (fun r => (r, getSigner s (pyOr ident s.defaultIdentifier))) ∧
      (submit s ops ident).1.sent = s.sent) ∧
    (∀ k, pyOr ident s.defaultIdentifier = some k →
      s.signers.find? (fun p => p.1 = k) = none → getSigner s ident = none) ∧
    (initSignerCheck signer signersArg = Except.ok () ↔
      ¬ (signer.isSome = true ∧ signersArg.isSome = true)) := by
  have h2 := submit_reqs s ops ident
  refine ⟨h2, ?_, ?_, ?_, ?_, ?_⟩
  · rw [h2, expectedReqs_length]
  · intro h
    have hs := submitGo_send (pyOr ident s.defaultIdentifier) ops s h.1 h.2
    constructor
    · rw [h2, submit, hs.2.1, pyOr_pyOr]
    · rw [submit, hs.2.2]
  · intro h
    have hs := submitGo_pend (pyOr ident s.defaultIdentifier) ops s h
    constructor
    · rw [h2, submit, hs.2.1, pyOr_pyOr]
    · rw [submit, hs.2.2]
  · intro k hk hfind
    simp [getSigner, hk, hfind]
  · by_cases h : signer.isSome = true ∧ signersArg.isSome = true
    · constructor
      · intro hok
        simp [initSignerCheck, h] at hok
      · intro hn
        exact absurd h hn
    · constructor
      · intro _
        exact h
      · intro _
        simp [initSignerCheck, h]

/-- Claim C6 witness: instantiates the amended theorem — two operations
produce two requests, an unknown identifier resolves to signer `None`,
and supplying both a signer and a signer map fails the construction
check. -/
theorem claim_C6_witness :
    (submit ({baseState with mode := none} : ClientState Nat Nat) [7, 8] (some "alice")).2.length = 2 ∧
    getSigner ({baseState with mode := none} : ClientState Nat Nat) (some "alice") = none ∧
    (initSignerCheck (some ⟨"k"⟩) (some []) = Except.ok () ↔
      ¬ ((some (⟨"k"⟩ : Signer)).isSome = true ∧
         (some ([] : List (String × Signer))).isSome = true)) :=
  ⟨(claim_C6_theorem ({baseState with mode := none} : ClientState Nat Nat) [7, 8]
      (some "alice") none none).2.1,
   (claim_C6_theorem ({baseState with mode := none} : ClientState Nat Nat) [7, 8]
      (some "alice") none none).2.2.2.2.1 "alice" (by decide) (by decide),
   (claim_C6_theorem ({baseState with mode := none} : ClientState Nat Nat) [7, 8]
      (some "alice") (some ⟨"k"⟩) (some [])).2.2.2.2.2⟩

/-- Claim C7: a request submitted while the client lacks sufficient
connections or is not discovered is appended to the pending queue (with
its signer); and on a connection change while the motor is going (the
transport only delivers notifications to a running client, `prod` guards
`serviceLifecycle` with `isGoing`) with the count at least
`minNodesToConnect` and SyncMode discovered, the whole queue is sent in
FIFO order (followed only by the ledger-status messages for newly joined
nodes) and the queue is empty afterwards. -/
theorem claim_C7_theorem (s : ClientState V Op) (ops : List Op) (ident : Option String)
    (joined : List String) :
    (¬ (s.mode = some Mode.discovered ∧ hasSufficientConnections s = true) →
      (submit s ops ident).1.reqsPendingConnection = s.reqsPendingConnection ++
        (submit s ops ident).2.map (fun r => (r, getSigner s (pyOr ident s.defaultIdentifier)))) ∧
    (s.going = true → s.minNodesToConnect ≤ s.conns → s.mode = some Mode.discovered →
      (onConnsChanged s joined).reqsPendingConnection = [] ∧
      (onConnsChanged s joined).sent = s.sent ++
        s.reqsPendingConnection.map (fun p => OutMsg.request p.1 p.2) ++
        (if s.hasLedger then joined.map OutMsg.ledgerStatusTo else [])) := by
  constructor
  · intro h
    have hs := submitGo_pend (pyOr ident s.defaultIdentifier) ops s h
    rw [submit_reqs s ops ident, submit, hs.2.1, pyOr_pyOr]
  · intro hg hmin hmode
    exact onConnsChanged_flush s joined hg hmin hmode

/-- Claim C7 witness: a request submitted with SyncMode undetermined is
enqueued; a connection notification on a discovered, fully connected
client sends the queued request and empties the queue. -/
theorem claim_C7_witness :
    (submit ({baseState with mode := none} : ClientState Nat Nat) [5] none).1.reqsPendingConnection =
      ({baseState with mode := none} : ClientState Nat Nat).reqsPendingConnection ++
        (submit ({baseState with mode := none} : ClientState Nat Nat) [5] none).2.map
          (fun r => (r, getSigner ({baseState with mode := none} : ClientState Nat Nat)
            (pyOr none ({baseState with mode := none} :
              ClientState Nat Nat).defaultIdentifier))) ∧
    (onConnsChanged ({baseState with
        reqsPendingConnection := [(⟨none, 1, 5⟩, none)]} : ClientState Nat Nat)
      ["N"]).reqsPendingConnection = [] ∧
    (onConnsChanged ({baseState with
        reqsPendingConnection := [(⟨none, 1, 5⟩, none)]} : ClientState Nat Nat)
      ["N"]).sent = [OutMsg.request ⟨none, 1, 5⟩ none] :=
  ⟨(claim_C7_theorem ({baseState with mode := none} : ClientState Nat Nat) [5] none ["N"]).1
     (by decide),
   ((claim_C7_theorem ({baseState with reqsPendingConnection := [(⟨none, 1, 5⟩, none)]} :
       ClientState Nat Nat) [] none ["N"]).2 (by decide) (by decide) (by decide)).1,
   ((claim_C7_theorem ({baseState with reqsPendingConnection := [(⟨none, 1, 5⟩, none)]} :
       ClientState Nat Nat) [] none ["N"]).2 (by decide) (by decide) (by decide)).2⟩

/-- Claim C8: on a connection-change notification (delivered while the
motor is going — `prod` services the lifecycle only when `isGoing`), the
readiness status is recomputed from the current connection count: equal
to the total replica count yields `started`; at least `minNodesToConnect`
but below the total yields `started_hungry`; otherwise the status is left
unchanged.  Independently `hasSufficientConnections` holds exactly when
the count is at least `minNodesToConnect`, regardless of the status. -/
theorem claim_C8_theorem (s : ClientState V Op) (joined : List String)
    (hg : s.going = true) :
    (s.conns = s.totalNodes → (onConnsChanged s joined).status = CliStatus.started) ∧
    (s.minNodesToConnect ≤ s.conns → s.conns < s.totalNodes →
      (onConnsChanged s joined).status = CliStatus.startedHungry) ∧
    (s.conns < s.minNodesToConnect → s.conns ≠ s.totalNodes →
      (onConnsChanged s joined).status = s.status) ∧
    (hasSufficientConnections s = true ↔ s.minNodesToConnect ≤ s.conns) := by
  refine ⟨?_, ?_, ?_, ?_⟩
  · intro htot
    rw [onConnsChanged_status s joined hg]
    simp [htot]
  · intro hmin hlt
    have htot : ¬ s.conns = s.totalNodes := by omega
    rw [onConnsChanged_status s joined hg]
    simp [htot, hmin]
  · intro hlt hne
    have hmin : ¬ s.minNodesToConnect ≤ s.conns := by omega
    rw [onConnsChanged_status s joined hg]
    simp [hne, hmin]
  · simp [hasSufficientConnections]

/-- Claim C8 witness: full connectivity yields `started`; two of four
connections yield `started_hungry`; one connection leaves the status
unchanged; `hasSufficientConnections` evaluates per the threshold. -/
theorem claim_C8_witness :
    (onConnsChanged (baseState : ClientState Nat Nat) ["N"]).status = CliStatus.started ∧
    (onConnsChanged ({baseState with conns := 2} : ClientState Nat Nat) ["N"]).status =
      CliStatus.startedHungry ∧
    (onConnsChanged ({baseState with conns := 1} : ClientState Nat Nat) ["N"]).status =
      ({baseState with conns := 1} : ClientState Nat Nat).status ∧
    (hasSufficientConnections (baseState : ClientState Nat Nat) = true ↔
      baseState.minNodesToConnect ≤ baseState.conns) :=
  ⟨(claim_C8_theorem baseState ["N"] (by decide)).1 (by decide),
   (claim_C8_theorem ({baseState with conns := 2} : ClientState Nat Nat) ["N"]
      (by decide)).2.1 (by decide) (by decide),
   (claim_C8_theorem ({baseState with conns := 1} : ClientState Nat Nat) ["N"]
      (by decide)).2.2.1 (by decide) (by decide),
   (claim_C8_theorem baseState ["N"] (by decide)).2.2.2⟩

section MerkleLemmas

theorem hashChildren_inj {a b c d : Bytes} (h : hashChildren a b = hashChildren c d) :
    a = c ∧ b = d := by
  simp only [hashChildren, List.cons.injEq] at h
  rcases h with ⟨-, hlen, happ⟩
  exact List.append_inj happ hlen

theorem combineLevel_length : ∀ l : List Bytes,
    (combineLevel l).length = (l.length + 1) / 2
  | [] => by simp [combineLevel]
  | [x] => by simp [combineLevel]
  | x :: y :: rest => by
    have ih := combineLevel_length rest
    simp only [combineLevel, List.length_cons, ih]
    omega

theorem combineLevel_getD : ∀ (l : List Bytes) (j : Nat),
    (combineLevel l).getD j [] =
      if 2 * j + 1 < l.length then
        hashChildren (l.getD (2 * j) []) (l.getD (2 * j + 1) [])
      else l.getD (2 * j) []
  | [], j => by
    rw [if_neg (by simp only [List.length_nil]; omega)]
    simp [combineLevel]
  | [x], j => by
    rw [if_neg (by simp only [List.length_singleton]; omega)]
    cases j with
    | zero => simp [combineLevel]
    | succ j =>
      have h2 : 2 * (j + 1) = 2 * j + 1 + 1 := by omega
      simp [combineLevel, h2]
  | x :: y :: rest, j => by
    cases j with
    | zero =>
      rw [if_pos (by simp only [List.length_cons]; omega)]
      simp [combineLevel]
    | succ j =>
      have ih := combineLevel_getD rest j
      have h2 : 2 * (j + 1) = 2 * j + 1 + 1 := by omega
      simp only [combineLevel, h2, List.getD_cons_succ, ih, List.length_cons]
      by_cases hlt : 2 * j + 1 < rest.length
      · rw [if_pos hlt, if_pos (by omega)]
      · rw [if_neg hlt, if_neg (by omega)]

theorem rootLevels_fuel : ∀ (fuel fuel' : Nat) (l : List Bytes),
    l.length ≤ fuel → l.length ≤ fuel' → rootLevels fuel l = rootLevels fuel' l := by
  intro fuel
  induction fuel with
  | zero =>
    intro fuel' l hf hf'
    rcases l with _ | ⟨x, _ | ⟨y, rest⟩⟩
    · cases fuel' <;> rfl
    · simp at hf
    · simp at hf
  | succ fuel ih =>
    intro fuel' l hf hf'
    rcases l with _ | ⟨x, _ | ⟨y, rest⟩⟩
    · cases fuel' <;> rfl
    · cases fuel' <;> rfl
    · rcases fuel' with _ | fuel'
      · simp at hf'
      · have hcl := combineLevel_length rest
        simp only [List.length_cons] at hf hf'
        have hcomb : (hashChildren x y :: combineLevel rest).length ≤ fuel := by
          simp only [List.length_cons, hcl]
          omega
        have hcomb' : (hashChildren x y :: combineLevel rest).length ≤ fuel' := by
          simp only [List.length_cons, hcl]
          omega
        simp only [rootLevels]
        exact ih fuel' _ hcomb hcomb'

theorem genPath_ne_nil : ∀ (fg : Nat) (level : List Bytes) (i : Nat),
    level.length ≤ fg → 2 ≤ level.length → i < level.length →
    genPath fg i level ≠ [] := by
  intro fg
  induction fg with
  | zero =>
    intro level i hf h2 hi
    omega
  | succ fg ih =>
    intro level i hf h2 hi
    rcases level with _ | ⟨x, _ | ⟨y, rest⟩⟩
    · simp at h2
    · simp at h2
    · by_cases hodd : i % 2 = 1
      · simp [genPath, hodd]
      · by_cases hlt : i + 1 < (x :: y :: rest).length
        · have hgp : genPath (fg + 1) i (x :: y :: rest) =
              (x :: y :: rest).getD (i + 1) [] :: genPath fg (i / 2)
                (hashChildren x y :: combineLevel rest) := by
            simp only [genPath]
            rw [if_neg hodd, if_pos hlt]
            rfl
          rw [hgp]
          simp
        · have hcl := combineLevel_length rest
          simp only [List.length_cons] at hi hlt hf
          have hieq : i = rest.length + 1 := by omega
          have hev : i % 2 = 0 := by omega
          have hro : 1 ≤ rest.length := by omega
          have hcomb2 : 2 ≤ (hashChildren x y :: combineLevel rest).length := by
            simp only [List.length_cons, hcl]
            omega
          have hfc : (hashChildren x y :: combineLevel rest).length ≤ fg := by
            simp only [List.length_cons, hcl]
            omega
          have hic : i / 2 < (hashChildren x y :: combineLevel rest).length := by
            simp only [List.length_cons, hcl]
            omega
          have hne := ih (hashChildren x y :: combineLevel rest) (i / 2) hfc hcomb2 hic
          simpa [genPath, hodd, hlt] using hne

theorem calc_genuine : ∀ (fg : Nat) (level : List Bytes) (i fc : Nat),
    level.length ≤ fg → level.length - 1 ≤ fc → i < level.length →
    calcRootAux fc (level.getD i []) i (level.length - 1) (genPath fg i level) =
      some (rootOf level) := by
  intro fg
  induction fg with
  | zero =>
    intro level i fc hf hfc hi
    omega
  | succ fg ih =>
    intro level i fc hf hfc hi
    rcases level with _ | ⟨x, _ | ⟨y, rest⟩⟩
    · simp at hi
    · have hi0 : i = 0 := by
        simp only [List.length_singleton] at hi
        omega
      subst hi0
      simp [genPath, calcRootAux, rootOf, rootLevels]
    · -- level = x :: y :: rest; write comb for the next level up
      have hcl := combineLevel_length rest
      simp only [List.length_cons] at hf hfc hi
      obtain ⟨c, rfl⟩ : ∃ c, fc = c + 1 := ⟨fc - 1, by omega⟩
      have hlast : (x :: y :: rest).length - 1 = rest.length + 1 := by simp
      have hcombl : (hashChildren x y :: combineLevel rest).length =
          (rest.length + 1) / 2 + 1 := by
        simp only [List.length_cons, hcl]
      have hroot : rootOf (x :: y :: rest) = rootOf (hashChildren x y :: combineLevel rest) := by
        simp only [rootOf, List.length_cons]
        have hstep : rootLevels (rest.length + 1 + 1) (x :: y :: rest) =
            rootLevels (rest.length + 1) (hashChildren x y :: combineLevel rest) := by
          simp only [rootLevels]
        rw [hstep]
        exact rootLevels_fuel _ _ _
          (by simp only [List.length_cons, hcl]; omega)
          (by simp only [List.length_cons, hcl]; omega)
      have hfgc : (hashChildren x y :: combineLevel rest).length ≤ fg := by
        rw [hcombl]; omega
      have hfcc : (hashChildren x y :: combineLevel rest).length - 1 ≤ c := by
        rw [hcombl]; omega
      have hic : i / 2 < (hashChildren x y :: combineLevel rest).length := by
        rw [hcombl]; omega
      have e3 : (rest.length + 1) / 2 = (hashChildren x y :: combineLevel rest).length - 1 := by
        omega
      have hcg := combineLevel_getD (x :: y :: rest) (i / 2)
      simp only [combineLevel, List.length_cons] at hcg
      have ihc := ih (hashChildren x y :: combineLevel rest) (i / 2) c hfgc hfcc hic
      rw [hlast, hroot]
      by_cases hodd : i % 2 = 1
      · have hgp : genPath (fg + 1) i (x :: y :: rest) =
            (x :: y :: rest).getD (i - 1) [] :: genPath fg (i / 2)
              (hashChildren x y :: combineLevel rest) := by
          simp [genPath, hodd]
        rw [hgp]
        have hstep : calcRootAux (c + 1) ((x :: y :: rest).getD i []) i (rest.length + 1)
            ((x :: y :: rest).getD (i - 1) [] :: genPath fg (i / 2)
              (hashChildren x y :: combineLevel rest)) =
            calcRootAux c
              (hashChildren ((x :: y :: rest).getD (i - 1) []) ((x :: y :: rest).getD i []))
              (i / 2) ((rest.length + 1) / 2)
              (genPath fg (i / 2) (hashChildren x y :: combineLevel rest)) := by
          simp [calcRootAux, hodd]
        rw [hstep]
        have e1 : 2 * (i / 2) = i - 1 := by omega
        have e2 : 2 * (i / 2) + 1 = i := by omega
        rw [e2, e1] at hcg
        rw [if_pos (by omega)] at hcg
        rw [← hcg, e3]
        exact ihc
      · by_cases hlt : i + 1 < rest.length + 2
        · have hgp : genPath (fg + 1) i (x :: y :: rest) =
              (x :: y :: rest).getD (i + 1) [] :: genPath fg (i / 2)
                (hashChildren x y :: combineLevel rest) := by
            simp only [genPath, List.length_cons]
            rw [if_neg hodd, if_pos hlt]
            rfl
          rw [hgp]
          have hstep : calcRootAux (c + 1) ((x :: y :: rest).getD i []) i (rest.length + 1)
              ((x :: y :: rest).getD (i + 1) [] :: genPath fg (i / 2)
                (hashChildren x y :: combineLevel rest)) =
              calcRootAux c
                (hashChildren ((x :: y :: rest).getD i []) ((x :: y :: rest).getD (i + 1) []))
                (i / 2) ((rest.length + 1) / 2)
                (genPath fg (i / 2) (hashChildren x y :: combineLevel rest)) := by
            have hilt : i < rest.length + 1 := by omega
            simp [calcRootAux, hodd, hilt]
          rw [hstep]
          have e1 : 2 * (i / 2) = i := by omega
          rw [e1] at hcg
          rw [if_pos (by omega)] at hcg
          rw [← hcg, e3]
          exact ihc
        · -- i is the even last node of this level
          have hieq : i = rest.length + 1 := by omega
          have hev : i % 2 = 0 := by omega
          have hro : 1 ≤ rest.length := by omega
          have hgp : genPath (fg + 1) i (x :: y :: rest) =
              genPath fg (i / 2) (hashChildren x y :: combineLevel rest) := by
            simp only [genPath, List.length_cons]
            rw [if_neg hodd, if_neg hlt]
            rfl
          rw [hgp]
          have hcomb2 : 2 ≤ (hashChildren x y :: combineLevel rest).length := by
            rw [hcombl]; omega
          have hne := genPath_ne_nil fg (hashChildren x y :: combineLevel rest) (i / 2)
            hfgc hcomb2 hic
          rcases hgp2 : genPath fg (i / 2) (hashChildren x y :: combineLevel rest) with
            _ | ⟨s0, tail⟩
          · exact absurd hgp2 hne
          · have hstep : calcRootAux (c + 1) ((x :: y :: rest).getD i []) i (rest.length + 1)
                (s0 :: tail) =
                calcRootAux c ((x :: y :: rest).getD i []) (i / 2) ((rest.length + 1) / 2)
                  (s0 :: tail) := by
              have hnlt : ¬ i < rest.length + 1 := by omega
              simp [calcRootAux, hodd, hnlt]
            rw [hstep]
            have e1 : 2 * (i / 2) = i := by omega
            rw [e1] at hcg
            rw [if_neg (by omega)] at hcg
            rw [← hcg, e3]
            rw [hgp2] at ihc
            exact ihc

theorem calcRootAux_inj : ∀ (fuel i last : Nat) (h h' : Bytes) (p p' : List Bytes)
    (r : Bytes), last ≤ fuel → p.length = p'.length →
    calcRootAux fuel h i last p = some r → calcRootAux fuel h' i last p' = some r →
    h = h' ∧ p = p' := by
  intro fuel
  induction fuel with
  | zero =>
    intro i last h h' p p' r hl hlen hp hp'
    have hlast : last = 0 := by omega
    subst hlast
    rcases p with _ | ⟨a, p⟩
    · rcases p' with _ | ⟨a', p'⟩
      · simp only [calcRootAux, List.isEmpty_nil, if_true, Option.some.injEq] at hp hp'
        exact ⟨hp.trans hp'.symm, rfl⟩
      · simp at hlen
    · simp [calcRootAux] at hp
  | succ fuel ih =>
    intro i last h h' p p' r hl hlen hp hp'
    rcases last with _ | last
    · rcases p with _ | ⟨a, p⟩
      · rcases p' with _ | ⟨a', p'⟩
        · simp only [calcRootAux, List.isEmpty_nil, if_true, Option.some.injEq] at hp hp'
          exact ⟨hp.trans hp'.symm, rfl⟩
        · simp at hlen
      · simp [calcRootAux] at hp
    · rcases p with _ | ⟨sib, rest⟩
      · simp [calcRootAux] at hp
      · rcases p' with _ | ⟨sib', rest'⟩
        · simp at hlen
        · have hlen' : rest.length = rest'.length := by simpa using hlen
          have hfl : (last + 1) / 2 ≤ fuel := by omega
          by_cases hodd : i % 2 = 1
          · simp only [calcRootAux, hodd, if_true] at hp hp'
            rcases ih (i / 2) ((last + 1) / 2) _ _ rest rest' r hfl hlen' hp hp' with
              ⟨hch, hrest⟩
            rcases hashChildren_inj hch with ⟨hs, hh⟩
            exact ⟨hh, by rw [hs, hrest]⟩
          · by_cases hlt : i < last + 1
            · simp only [calcRootAux, hodd, hlt, if_true, if_false, ite_true, ite_false] at hp hp'
              rcases ih (i / 2) ((last + 1) / 2) _ _ rest rest' r hfl hlen' hp hp' with
                ⟨hch, hrest⟩
              rcases hashChildren_inj hch with ⟨hh, hs⟩
              exact ⟨hh, by rw [hs, hrest]⟩
            · simp only [calcRootAux, hodd, hlt, if_false, ite_false] at hp hp'
              exact ih (i / 2) ((last + 1) / 2) h h' (sib :: rest) (sib' :: rest') r hfl
                (by simpa using hlen) hp hp'

theorem filter_fieldEntries (t : List (String × Bytes))
    (hk : ∀ p ∈ t, ¬ (p.1 = "auditPath" ∨ p.1 = "seqNo" ∨ p.1 = "rootHash")) :
    (fieldEntries t).filter
      (fun p => !(decide (p.1 = "auditPath" ∨ p.1 = "seqNo" ∨ p.1 = "rootHash"))) =
      fieldEntries t := by
  induction t with
  | nil => rfl
  | cons p rest ih =>
    have hp := hk p (List.mem_cons_self p rest)
    have hrest := fun q hq => hk q (List.mem_cons_of_mem p hq)
    simp only [fieldEntries, List.map_cons, List.filter_cons] at ih ⊢
    rw [if_pos (by simp [decide_eq_false hp])]
    rw [ih hrest]

theorem filteredEntries_eq (r : RReply)
    (hk : ∀ p ∈ r.txnFields, ¬ (p.1 = "auditPath" ∨ p.1 = "seqNo" ∨ p.1 = "rootHash")) :
    filteredEntries r = fieldEntries r.txnFields := by
  have e1 : (!(decide (True ∨ ("auditPath" : String) = "seqNo" ∨
      ("auditPath" : String) = "rootHash"))) = false := by decide
  have e2 : (!(decide (("seqNo" : String) = "auditPath" ∨ True ∨
      ("seqNo" : String) = "rootHash"))) = false := by decide
  have e3 : (!(decide (("rootHash" : String) = "auditPath" ∨
      ("rootHash" : String) = "seqNo" ∨ True))) = false := by decide
  simp only [filteredEntries, resultDict, List.filter_append, List.filter_cons,
    eq_self_iff_true, e1, e2, e3, Bool.false_eq_true, if_false, List.filter_nil,
    List.append_nil]
  exact filter_fieldEntries r.txnFields hk

theorem ledgerLeafHashes_length (txns : List (List (String × Bytes))) (i : Nat)
    (hi : i < txns.length) :
    (ledgerLeafHashes (txns.take (i + 1))).length = i + 1 := by
  simp only [ledgerLeafHashes, List.length_map, List.length_take]
  omega

theorem ledgerLeafHashes_getD (txns : List (List (String × Bytes))) (i : Nat)
    (hi : i < txns.length) :
    (ledgerLeafHashes (txns.take (i + 1))).getD i [] =
      leafHash (serializeResult (fieldEntries (txns.getD i []))) := by
  rcases txns with _ | ⟨t0, ts⟩
  · simp at hi
  · induction i generalizing t0 ts with
    | zero => simp [ledgerLeafHashes]
    | succ i ih =>
      rcases ts with _ | ⟨t1, ts⟩
      · simp at hi
      · have hi' : i < (t1 :: ts).length := by simpa using hi
        have := ih t1 ts hi'
        simpa [ledgerLeafHashes, List.take_succ_cons] using this

theorem getD_set_self {α : Type} : ∀ (l : List α) (j : Nat) (v d : α), j < l.length →
    (l.set j v).getD j d = v
  | [], j, v, d, h => by simp at h
  | a :: l, 0, v, d, _ => by simp
  | a :: l, j + 1, v, d, h => by
    simp only [List.set, List.getD_cons_succ]
    exact getD_set_self l j v d (by simpa using h)

theorem set_ne {α : Type} (l : List α) (j : Nat) (v d : α) (hj : j < l.length)
    (hv : ¬ v = l.getD j d) : ¬ l.set j v = l := by
  intro he
  apply hv
  calc v = (l.set j v).getD j d := (getD_set_self l j v d hj).symm
    _ = l.getD j d := by rw [he]

end MerkleLemmas

/-- Claim C5: Merkle proof verification serializes all result fields
except the proof fields (`auditPath`, `seqNo`, `rootHash`), checks
inclusion of that leaf at index `seqNo - 1` against the root hash at tree
size `seqNo`, succeeds on every untampered proof constructed against the
correctly computed root of the ledger tree, and raises `ProofError`
whenever any single byte of any sibling hash in the audit path is
flipped. -/
theorem claim_C5_theorem (txns : List (List (String × Bytes))) (i : Nat)
    (hi : i < txns.length)
    (hkeys : ∀ t ∈ txns, ∀ p ∈ t,
      ¬ (p.1 = "auditPath" ∨ p.1 = "seqNo" ∨ p.1 = "rootHash")) :
    verifyMerkleProof [genuineReply txns i] = Except.ok true ∧
    (∀ j k y, j < (genuineReply txns i).auditPath.length →
      k < ((genuineReply txns i).auditPath.getD j []).length →
      ¬ y = ((genuineReply txns i).auditPath.getD j []).getD k 0 →
      verifyMerkleProof [{genuineReply txns i with
        auditPath := (genuineReply txns i).auditPath.set j
          (((genuineReply txns i).auditPath.getD j []).set k y)}] =
        Except.error ClientErr.proofError) := by
  have hmem : txns.getD i [] ∈ txns := by
    rw [List.getD_eq_getElem txns [] hi]
    exact List.getElem_mem hi
  have hklocal := hkeys (txns.getD i []) hmem
  have hlen : (ledgerLeafHashes (txns.take (i + 1))).length = i + 1 :=
    ledgerLeafHashes_length txns i hi
  have hleafD : (ledgerLeafHashes (txns.take (i + 1))).getD i [] =
      leafHash (serializeResult (fieldEntries (txns.getD i []))) :=
    ledgerLeafHashes_getD txns i hi
  have hfe : filteredEntries (genuineReply txns i) = fieldEntries (txns.getD i []) :=
    filteredEntries_eq _ hklocal
  have hgen := calc_genuine (ledgerLeafHashes (txns.take (i + 1))).length
    (ledgerLeafHashes (txns.take (i + 1))) i
    ((ledgerLeafHashes (txns.take (i + 1))).length - 1)
    (le_refl _) (le_refl _) (by omega)
  rw [hlen] at hgen
  simp only [Nat.add_sub_cancel] at hgen
  have hA : auditPathOf i (ledgerLeafHashes (txns.take (i + 1))) =
      genPath (i + 1) i (ledgerLeafHashes (txns.take (i + 1))) := by
    rw [auditPathOf, hlen]
  have hAP : (genuineReply txns i).auditPath =
      genPath (i + 1) i (ledgerLeafHashes (txns.take (i + 1))) := hA
  have hun1 : verifyOne (genuineReply txns i) =
      verify_leaf_inclusion (serializeResult (fieldEntries (txns.getD i []))) i
        (auditPathOf i (ledgerLeafHashes (txns.take (i + 1)))) (i + 1)
        (rootOf (ledgerLeafHashes (txns.take (i + 1)))) := by
    simp only [verifyOne, hfe]
    rfl
  have hv1 : verifyOne (genuineReply txns i) = Except.ok true := by
    rw [hun1, hA]
    simp only [verify_leaf_inclusion, calcRootFromAuditPath, Nat.add_sub_cancel]
    rw [if_neg (by omega), ← hleafD, hgen]
    simp
  constructor
  · simp only [verifyMerkleProof, hv1]
  · intro j k y hj hk hy
    have hfe' : filteredEntries {genuineReply txns i with
        auditPath := (genuineReply txns i).auditPath.set j
          (((genuineReply txns i).auditPath.getD j []).set k y)} =
        fieldEntries (txns.getD i []) := filteredEntries_eq _ hklocal
    have hvne : ¬ ((genuineReply txns i).auditPath.getD j []).set k y =
        (genuineReply txns i).auditPath.getD j [] :=
      set_ne _ k y 0 hk hy
    have hpne : ¬ (genuineReply txns i).auditPath.set j
        (((genuineReply txns i).auditPath.getD j []).set k y) =
        (genuineReply txns i).auditPath :=
      set_ne _ j _ [] hj hvne
    have hplen : (genPath (i + 1) i (ledgerLeafHashes (txns.take (i + 1)))).length =
        ((genuineReply txns i).auditPath.set j
          (((genuineReply txns i).auditPath.getD j []).set k y)).length := by
      rw [List.length_set, hAP]
    have hun2 : verifyOne {genuineReply txns i with
        auditPath := (genuineReply txns i).auditPath.set j
          (((genuineReply txns i).auditPath.getD j []).set k y)} =
        verify_leaf_inclusion (serializeResult (fieldEntries (txns.getD i []))) i
          ((genuineReply txns i).auditPath.set j
            (((genuineReply txns i).auditPath.getD j []).set k y)) (i + 1)
          (rootOf (ledgerLeafHashes (txns.take (i + 1)))) := by
      simp only [verifyOne, hfe']
      rfl
    have hvs : verifyOne {genuineReply txns i with
        auditPath := (genuineReply txns i).auditPath.set j
          (((genuineReply txns i).auditPath.getD j []).set k y)} =
        Except.error ClientErr.proofError := by
      rw [hun2]
      simp only [verify_leaf_inclusion, calcRootFromAuditPath, Nat.add_sub_cancel]
      rw [if_neg (by omega), ← hleafD]
      rcases hc : calcRootAux i ((ledgerLeafHashes (txns.take (i + 1))).getD i []) i i
          ((genuineReply txns i).auditPath.set j
            (((genuineReply txns i).auditPath.getD j []).set k y)) with _ | root
      · rfl
      · have hne : ¬ root = rootOf (ledgerLeafHashes (txns.take (i + 1))) := by
          intro he
          subst he
          rcases calcRootAux_inj i i i
            ((ledgerLeafHashes (txns.take (i + 1))).getD i [])
            ((ledgerLeafHashes (txns.take (i + 1))).getD i [])
            (genPath (i + 1) i (ledgerLeafHashes (txns.take (i + 1))))
            ((genuineReply txns i).auditPath.set j
              (((genuineReply txns i).auditPath.getD j []).set k y))
            (rootOf (ledgerLeafHashes (txns.take (i + 1))))
            (le_refl i) hplen hgen hc with ⟨-, hpp⟩
          exact hpne (hpp.symm.trans hAP.symm)
        simp [hne]
    simp only [verifyMerkleProof, hvs]

/-- Claim C5 witness: a three-entry ledger; the genuine proof for the last
entry verifies, and the proof with one byte of the single audit-path
sibling flipped fails with `ProofError`. -/
theorem claim_C5_witness :
    verifyMerkleProof [genuineReply c5Txns 2] = Except.ok true ∧
    verifyMerkleProof [{genuineReply c5Txns 2 with
      auditPath := (genuineReply c5Txns 2).auditPath.set 0
        (((genuineReply c5Txns 2).auditPath.getD 0 []).set 0 99)}] =
      Except.error ClientErr.proofError :=
  ⟨(claim_C5_theorem c5Txns 2 (by decide) (by decide)).1,
   (claim_C5_theorem c5Txns 2 (by decide) (by decide)).2 0 0 99
     (by decide) (by decide) (by decide)⟩

end Plenum
